import Mathlib

set_option autoImplicit false

/-!
Shallow embedding of the proof-of-work ledger core of the
`blockchain-voting` repository: `src/blockchain/block.py`,
`src/blockchain/chain.py` and `src/blockchain/fork_handler.py`.

Python strings (hashes) are modelled as `List Char`; the SHA-256 digest of
`Block.calculate_hash` is an opaque parameter `H : HashFn` taking the five
hashed fields (`index`, `timestamp`, `data`, `previous_hash`, `nonce`).
Timestamps (`time.time()`) are external inputs, passed explicitly.
Block payloads (`data`) are modelled by `BData`, which can represent the
mined-block dictionary `{"transactions": ..., "miner": ...}` built by
`mine_pending_data` as well as opaque enqueued payloads.

Operations that can raise in Python (`latest_block` on an empty chain) or
diverge (an unsuccessful proof-of-work search) return `Option`: `none`
means no observable final state.
-/

/-- Opaque block payload: the genesis message, an arbitrary enqueued
payload (indexed by a `Nat` tag), or the dictionary
`{"transactions": txs, "miner": miner}` built by `mine_pending_data`. -/
inductive BData where
  | genesisMsg : BData
  | payload (tag : Nat) : BData
  | mined (txs : List BData) (miner : List Char) : BData

/-- A block record, `block.py`, class `Block`: position, creation time,
payload, predecessor digest, search counter, and the stored hash. -/
structure Block where
  index : Nat
  timestamp : Nat
  data : BData
  previous_hash : List Char
  nonce : Nat
  hash : List Char

instance : Inhabited Block := ⟨⟨0, 0, BData.genesisMsg, [], 0, []⟩⟩

/-- The hash digest, abstract: `hashlib.sha256` over the canonical JSON of
the five non-`hash` fields (`block.py`, `calculate_hash`). -/
def HashFn : Type := Nat → Nat → BData → List Char → Nat → List Char

/-- `Block.calculate_hash` (`block.py` lines 42-59): digest of the five
stored fields other than `hash` itself. -/
def calculate_hash (H : HashFn) (b : Block) : List Char :=
  H b.index b.timestamp b.data b.previous_hash b.nonce

/-- The `Block.__init__` constructor (`block.py` lines 19-40): stores the
given fields and sets `hash = calculate_hash()`. -/
def mkBlock (H : HashFn) (index timestamp : Nat) (data : BData)
    (previous_hash : List Char) (nonce : Nat) : Block :=
  { index := index, timestamp := timestamp, data := data,
    previous_hash := previous_hash, nonce := nonce,
    hash := H index timestamp data previous_hash nonce }

/-- The difficulty test `hash[:difficulty] == '0' * difficulty` used by
`Block.mine_block` and `Blockchain.is_valid_block`. -/
def meetsDifficulty (d : Nat) (h : List Char) : Bool :=
  h.take d == List.replicate d '0'

/-- Count of leading `'0'` characters of a hash, as computed by the
`for char in block.hash` loop of `ForkHandler._calculate_chain_work`
(`fork_handler.py` lines 300-307). -/
def leading_zeros : List Char → Nat
  | [] => 0
  | c :: rest => if c = '0' then leading_zeros rest + 1 else 0

/-- `Block.mine_block` (`block.py` lines 61-72): while the stored hash
misses the difficulty target, increment `nonce` and recompute `hash`.
`fuel` bounds the search; `none` models a search that has not finished
(the Python loop simply has not returned). -/
def mine_block (H : HashFn) (d : Nat) : Nat → Block → Option Block
  | fuel, b =>
    if meetsDifficulty d b.hash then some b
    else
      match fuel with
      | 0 => none
      | fuel + 1 =>
          mine_block H d fuel
            (mkBlock H b.index b.timestamp b.data b.previous_hash (b.nonce + 1))

/-- Blockchain state (`chain.py`, class `Blockchain`): the block list, the
difficulty, and the pending-data queue. -/
structure Chain where
  chain : List Block
  difficulty : Nat
  pending_data : List BData

/-- `Blockchain.is_valid_block` (`chain.py` lines 135-167): consecutive
index, matching previous-hash link, stored hash equal to the recomputed
digest, and the difficulty prefix test, with early-return `False` on the
first failure. -/
def is_valid_block (H : HashFn) (d : Nat) (b prev : Block) : Bool :=
  (b.index == prev.index + 1) &&
  (b.previous_hash == prev.hash) &&
  (b.hash == calculate_hash H b) &&
  meetsDifficulty d b.hash

/-- The `for i in range(1, len(chain))` loop of
`Blockchain.is_valid_chain` (`chain.py` lines 188-190): every adjacent
pair must pass `is_valid_block`. -/
def chain_pairs_valid (H : HashFn) (d : Nat) : List Block → Bool
  | [] => true
  | [_] => true
  | prev :: cur :: rest =>
      is_valid_block H d cur prev && chain_pairs_valid H d (cur :: rest)

/-- `Blockchain.is_valid_chain` (`chain.py` lines 169-192): non-empty and
pairwise valid; the block at position 0 gets no predecessor check. -/
def is_valid_chain (H : HashFn) (d : Nat) (chain : List Block) : Bool :=
  if chain.length = 0 then false
  else chain_pairs_valid H d chain

/-- `Blockchain.add_block` (`chain.py` lines 114-133): validate against
`latest_block` and append on success.  `latest_block` on an empty chain
raises `IndexError` in Python, modelled by `none`. -/
def add_block (H : HashFn) (c : Chain) (b : Block) : Option (Chain × Bool) :=
  match c.chain.getLast? with
  | none => none
  | some latest =>
      if is_valid_block H c.difficulty b latest then
        some ({ c with chain := c.chain ++ [b] }, true)
      else
        some (c, false)

/-- `Blockchain.mine_pending_data` (`chain.py` lines 73-112): empty queue
gives `None` with no mutation; otherwise build a block at
`index = len(chain)` with data `{"transactions": pending copy, "miner":
miner}` and `previous_hash = latest_block.hash`, mine it, append it and
clear the queue.  The outer `none` covers the raising/diverging runs. -/
def mine_pending_data (H : HashFn) (fuel : Nat) (c : Chain)
    (miner : List Char) (ts : Nat) : Option (Option Block × Chain) :=
  if c.pending_data.isEmpty then some (none, c)
  else
    match c.chain.getLast? with
    | none => none
    | some latest =>
        match mine_block H c.difficulty fuel (mkBlock H c.chain.length ts
            (BData.mined c.pending_data miner) latest.hash 0) with
        | none => none
        | some m =>
            some (some m, { c with chain := c.chain ++ [m], pending_data := [] })

/-- `Blockchain.replace_chain` (`chain.py` lines 194-219): reject a chain
that is not strictly longer, reject an invalid chain, otherwise install
it. -/
def replace_chain (H : HashFn) (c : Chain) (new_chain : List Block) :
    Chain × Bool :=
  if new_chain.length ≤ c.chain.length then (c, false)
  else if ¬ is_valid_chain H c.difficulty new_chain then (c, false)
  else ({ c with chain := new_chain }, true)

/-- `Blockchain.fork_detection_and_resolution` (`chain.py` lines 314-366).
The branch order follows the source: `index < len` (already present /
genesis conflict / linked fork / fall-through "Unknown state"), then
`index == len` (append when valid), then `index > len` (need sync).
`latest_block` on an empty chain raises, modelled by `none`. -/
def fork_detection_and_resolution (H : HashFn) (c : Chain) (b : Block) :
    Option (Chain × Bool × String) :=
  if b.index < c.chain.length then
    if (c.chain.getD b.index default).hash = b.hash then
      some (c, false, "Block already exists in our chain")
    else if b.index = 0 then
      some (c, false, "Genesis block conflict, keeping our chain")
    else if b.previous_hash = (c.chain.getD (b.index - 1) default).hash then
      some (c, false, "Fork detected, need full chain comparison")
    else
      some (c, false, "Unknown state in fork resolution")
  else if b.index = c.chain.length then
    match c.chain.getLast? with
    | none => none
    | some latest =>
        if is_valid_block H c.difficulty b latest then
          some ({ c with chain := c.chain ++ [b] }, true, "Block added to chain")
        else
          some (c, false, "Invalid next block")
  else
    some (c, false, "Need to sync blocks")

/-! ## ForkHandler (`fork_handler.py`)

The handler holds a reference to one `Blockchain`; its methods are
modelled as functions on `Chain`.  Candidate chains arrive as lists of
block dictionaries and are rebuilt with `Block.from_dict`, which copies
the six stored fields verbatim (including the stored hash), so candidates
are modelled directly as `List Block`. -/

/-- The position-by-position comparison loop of
`ForkHandler.find_common_ancestor` (`fork_handler.py` lines 157-171),
walking both chains together; `i` is the absolute position. -/
def fca_go : List Block → List Block → Nat → Int
  | a :: as_, b :: bs, i =>
      if a.hash ≠ b.hash then
        if i = 0 then -1 else (i : Int) - 1
      else fca_go as_ bs (i + 1)
  | _, _, i => (i : Int) - 1

/-- `ForkHandler.find_common_ancestor` (`fork_handler.py` lines 147-171):
compare hashes from position 0 up to `min` length; `-1` when the genesis
blocks differ, last matching index before the first mismatch, `min - 1`
when one chain is a prefix-wise subset of the other. -/
def find_common_ancestor (c : Chain) (competing : List Block) : Int :=
  fca_go c.chain competing 0

/-- The from-scratch candidate validation inside `ForkHandler.resolve_fork`
(`fork_handler.py` lines 110-130): the first block must have index 0 and
the 64-`'0'` sentinel previous hash; each later block must pass
`is_valid_block` against its predecessor inside the candidate (the
`temp_blockchain` grows by exactly those predecessors).  Python would
raise on an empty candidate (`candidate_chain[0]`); `resolve_fork` only
reaches this code for chains longer than the local one, hence non-empty,
and the `[]` case is set to `false`. -/
def valid_from_scratch (H : HashFn) (d : Nat) (cand : List Block) : Bool :=
  match cand with
  | [] => false
  | g :: _ =>
      (g.index == 0) && (g.previous_hash == List.replicate 64 '0') &&
      chain_pairs_valid H d cand

/-- The `for chain_data in competing_chains` loop of
`ForkHandler.resolve_fork` (`fork_handler.py` lines 101-135): skip
candidates not longer than the best length so far; validate the rest from
scratch; record the candidate when valid and still longer than the best
length (the second length test mirrors line 132). -/
def resolve_fork_loop (H : HashFn) (d : Nat) :
    Nat → Option (List Block) → List (List Block) → Nat × Option (List Block)
  | bestLen, best, [] => (bestLen, best)
  | bestLen, best, cand :: rest =>
      if cand.length ≤ bestLen then resolve_fork_loop H d bestLen best rest
      else if valid_from_scratch H d cand && decide (bestLen < cand.length) then
        resolve_fork_loop H d cand.length (some cand) rest
      else resolve_fork_loop H d bestLen best rest

/-- `ForkHandler.resolve_fork` (`fork_handler.py` lines 82-145): the best
length starts at the local chain length; if a longest valid candidate was
found, install it and return `True`, else return `False`. -/
def resolve_fork (H : HashFn) (c : Chain) (cands : List (List Block)) :
    Chain × Bool :=
  match (resolve_fork_loop H c.difficulty c.chain.length none cands).2 with
  | some best => ({ c with chain := best }, true)
  | none => (c, false)

/-- `ForkHandler._calculate_chain_work` (`fork_handler.py` lines 286-310):
accumulate `16 ** leading_zeros(hash)` over the segment. -/
def calculate_chain_work (segment : List Block) : Nat :=
  segment.foldl (fun acc b => acc + 16 ^ leading_zeros b.hash) 0

/-- The `for i in range(sync_from_index, len(competing_chain))` appending
loop of `ForkHandler.sync_missing_blocks` (`fork_handler.py` lines
251-260): append `competing_chain[i]` when `i == 0` or it validates
against `competing_chain[i-1]`; on the first failure truncate the grown
chain to its first `s` blocks and stop.  Returns the final chain, the
success flag, and the loop index reached (for the failure message).
The first `Nat` argument is structural fuel, instantiated with
`comp.length - i` at the call site so that the recursion runs exactly the
`for i in range(...)` iterations. -/
def sync_append_loop (H : HashFn) (d : Nat) (s : Nat) (comp : List Block) :
    Nat → List Block → Nat → List Block × Bool × Nat
  | 0, cur, i => (cur, true, i)
  | fuel + 1, cur, i =>
    if i < comp.length then
      if i = 0 ∨ is_valid_block H d (comp.getD i default)
          (comp.getD (i - 1) default) = true then
        sync_append_loop H d s comp fuel (cur ++ [comp.getD i default]) (i + 1)
      else (cur.take s, false, i)
    else (cur, true, i)

/-- `ForkHandler.sync_missing_blocks` (`fork_handler.py` lines 230-284):
bounds check on the index; append-and-validate when the index is at or
past the local length; otherwise common-ancestor search over
`competing_chain[:sync_from_index+1]` followed by the chain-work
comparison of the two suffixes. -/
def sync_missing_blocks (H : HashFn) (c : Chain) (comp : List Block)
    (s : Int) : Chain × Bool × String :=
  if s < 0 ∨ (comp.length : Int) ≤ s then (c, false, "Invalid sync index")
  else
    let sn := s.toNat
    if c.chain.length ≤ sn then
      match sync_append_loop H c.difficulty sn comp (comp.length - sn) c.chain sn with
      | (nc, true, _) =>
          ({ c with chain := nc }, true,
            "Synced " ++ toString (comp.length - sn) ++ " blocks")
      | (nc, false, i) =>
          ({ c with chain := nc }, false,
            "Invalid block at index " ++ toString i ++ " during sync")
    else
      let anc := find_common_ancestor c (comp.take (sn + 1))
      if anc = -1 then (c, false, "No common ancestor found")
      else
        let a := anc.toNat
        if calculate_chain_work (c.chain.drop (a + 1)) <
            calculate_chain_work (comp.drop (a + 1)) then
          ({ c with chain := c.chain.take (a + 1) ++ comp.drop (a + 1) }, true,
            "Chain replaced after fork at index " ++ toString a)
        else (c, false, "Our chain has more work")

/-! ## The structural chain invariant (spec section 3) -/

/-- The spec's structural invariant on a block sequence: non-empty,
`chain[i].index == i`, `chain[i].previous_hash == chain[i-1].hash`, and
every non-genesis block's hash has at least `d` leading `'0'`
characters. -/
def chainOk (d : Nat) (bs : List Block) : Prop :=
  bs ≠ [] ∧
  (∀ i, ∀ h : i < bs.length, (bs.get ⟨i, h⟩).index = i) ∧
  (∀ i, ∀ h : i + 1 < bs.length,
    (bs.get ⟨i + 1, h⟩).previous_hash =
      (bs.get ⟨i, Nat.lt_of_succ_lt h⟩).hash ∧
    d ≤ leading_zeros (bs.get ⟨i + 1, h⟩).hash)

/-- The invariant applied to a `Chain` state with its own difficulty. -/
def chainInv (c : Chain) : Prop :=
  chainOk c.difficulty c.chain

/-! ## Basic lemmas -/

theorem take_eq_replicate_zero_iff (d : Nat) (h : List Char) :
    h.take d = List.replicate d '0' ↔ d ≤ leading_zeros h := by
  induction d generalizing h with
  | zero => simp
  | succ d ih =>
    cases h with
    | nil => simp [leading_zeros, List.replicate_succ]
    | cons c t =>
      simp only [List.take_succ_cons, List.replicate_succ, List.cons.injEq,
        leading_zeros]
      by_cases hc : c = '0'
      · subst hc
        simp [ih]
      · rw [if_neg hc]
        constructor
        · rintro ⟨h1, -⟩
          exact absurd h1 hc
        · intro hle
          omega

theorem meetsDifficulty_iff (d : Nat) (h : List Char) :
    meetsDifficulty d h = true ↔ d ≤ leading_zeros h := by
  rw [← take_eq_replicate_zero_iff]
  simp [meetsDifficulty]

theorem is_valid_block_iff (H : HashFn) (d : Nat) (b prev : Block) :
    is_valid_block H d b prev = true ↔
      b.index = prev.index + 1 ∧ b.previous_hash = prev.hash ∧
      b.hash = calculate_hash H b ∧ d ≤ leading_zeros b.hash := by
  simp [is_valid_block, meetsDifficulty_iff, and_assoc]

theorem mine_block_fields (H : HashFn) (d : Nat) :
    ∀ (fuel : Nat) (b m : Block), mine_block H d fuel b = some m →
      m.index = b.index ∧ m.timestamp = b.timestamp ∧ m.data = b.data ∧
      m.previous_hash = b.previous_hash ∧ meetsDifficulty d m.hash = true := by
  intro fuel
  induction fuel with
  | zero =>
    intro b m hm
    rw [mine_block] at hm
    split at hm
    · cases hm
      exact ⟨rfl, rfl, rfl, rfl, by assumption⟩
    · simp at hm
  | succ fuel ih =>
    intro b m hm
    rw [mine_block] at hm
    split at hm
    · cases hm
      exact ⟨rfl, rfl, rfl, rfl, by assumption⟩
    · have := ih (mkBlock H b.index b.timestamp b.data b.previous_hash
        (b.nonce + 1)) m hm
      simpa [mkBlock] using this

theorem chain_pairs_valid_get (H : HashFn) (d : Nat) :
    ∀ (bs : List Block), chain_pairs_valid H d bs = true →
      ∀ i, ∀ h : i + 1 < bs.length,
        is_valid_block H d (bs.get ⟨i + 1, h⟩)
          (bs.get ⟨i, Nat.lt_of_succ_lt h⟩) = true := by
  intro bs
  induction bs with
  | nil => intro _ i h; simp at h
  | cons a t ih =>
    cases t with
    | nil => intro _ i h; simp at h
    | cons b t' =>
      intro hv i h
      rw [chain_pairs_valid] at hv
      have h1 : is_valid_block H d b a = true ∧
          chain_pairs_valid H d (b :: t') = true := by simpa using hv
      cases i with
      | zero => simpa using h1.1
      | succ i =>
        have hlt : i + 1 < (b :: t').length := by
          simpa using Nat.lt_of_succ_lt_succ h
        simpa using ih h1.2 i hlt

theorem getLast?_eq_get_sub_one {α : Type} (l : List α) (a : α)
    (hl : l.getLast? = some a) :
    ∃ h : 0 < l.length, a = l.get ⟨l.length - 1, by omega⟩ := by
  have hne : l ≠ [] := by
    intro he
    rw [he] at hl
    simp at hl
  have hlen : 0 < l.length := List.length_pos.mpr hne
  refine ⟨hlen, ?_⟩
  rw [List.getLast?_eq_getElem? l, List.getElem?_eq_getElem (by omega)] at hl
  cases hl
  simp

theorem chainOk_append (d : Nat) (bs : List Block) (b latest : Block)
    (hok : chainOk d bs) (hl : bs.getLast? = some latest)
    (hidx : b.index = bs.length) (hprev : b.previous_hash = latest.hash)
    (hdiff : d ≤ leading_zeros b.hash) : chainOk d (bs ++ [b]) := by
  obtain ⟨hne, hIdx, hPair⟩ := hok
  obtain ⟨hlen, hlast⟩ := getLast?_eq_get_sub_one bs latest hl
  refine ⟨by simp, ?_, ?_⟩
  · intro i h
    simp only [List.length_append, List.length_singleton] at h
    by_cases hilt : i < bs.length
    · have he : (bs ++ [b]).get ⟨i, by simp; omega⟩ = bs.get ⟨i, hilt⟩ := by
        simp only [List.get_eq_getElem]
        exact List.getElem_append_left hilt
      rw [he]
      exact hIdx i hilt
    · have hieq : i = bs.length := by omega
      subst hieq
      have he : (bs ++ [b]).get ⟨bs.length, by simp⟩ = b := by
        simp only [List.get_eq_getElem]
        rw [List.getElem_append_right (Nat.le_refl _)]
        simp
      rw [he]
      omega
  · intro i h
    simp only [List.length_append, List.length_singleton] at h
    by_cases hilt : i + 1 < bs.length
    · have he1 : (bs ++ [b]).get ⟨i + 1, by simp; omega⟩ = bs.get ⟨i + 1, hilt⟩ := by
        simp only [List.get_eq_getElem]
        exact List.getElem_append_left hilt
      have he0 : (bs ++ [b]).get ⟨i, by simp; omega⟩ =
          bs.get ⟨i, Nat.lt_of_succ_lt hilt⟩ := by
        simp only [List.get_eq_getElem]
        exact List.getElem_append_left (Nat.lt_of_succ_lt hilt)
      rw [he1, he0]
      exact hPair i hilt
    · have hieq : i + 1 = bs.length := by omega
      have hlast2 : latest = bs.get ⟨i, by omega⟩ := by
        rw [hlast]
        exact congrArg bs.get (Fin.ext (show bs.length - 1 = i by omega))
      simp only [List.get_eq_getElem]
      rw [List.getElem_append_right (by omega : bs.length ≤ i + 1)]
      rw [List.getElem_append_left (by omega : i < bs.length)]
      have h0 : i + 1 - bs.length = 0 := by omega
      constructor
      · simp only [h0, List.getElem_cons_zero]
        rw [hprev, hlast2]
        simp
      · simp only [h0, List.getElem_cons_zero]
        exact hdiff

theorem chainOk_of_valid_from_scratch (H : HashFn) (d : Nat)
    (cand : List Block) (hv : valid_from_scratch H d cand = true) :
    chainOk d cand := by
  cases cand with
  | nil => simp [valid_from_scratch] at hv
  | cons g rest =>
    rw [valid_from_scratch] at hv
    simp only [Bool.and_eq_true, beq_iff_eq] at hv
    obtain ⟨⟨hg0, _⟩, hpairs⟩ := hv
    have hpget := chain_pairs_valid_get H d (g :: rest) hpairs
    have hidx : ∀ i, ∀ h : i < (g :: rest).length,
        ((g :: rest).get ⟨i, h⟩).index = i := by
      intro i
      induction i with
      | zero => intro h; simpa using hg0
      | succ i ih =>
        intro h
        have hvb := hpget i h
        rw [is_valid_block_iff] at hvb
        rw [hvb.1, ih (Nat.lt_of_succ_lt h)]
    refine ⟨by simp, hidx, ?_⟩
    intro i h
    have hvb := hpget i h
    rw [is_valid_block_iff] at hvb
    exact ⟨hvb.2.1, hvb.2.2.2⟩

/-! ## Claim C2: characterization of is_valid_block -/

/-- C2: `is_valid_block(candidate, previous)` returns true iff the
candidate's index is the successor of the previous block's index, its
`previous_hash` equals the previous block's hash, its stored hash equals
its recomputed digest, and its hash has at least `difficulty` leading hex
`'0'` characters. -/
theorem claim_C2_is_valid_block_characterization (H : HashFn) (d : Nat)
    (b prev : Block) :
    is_valid_block H d b prev = true ↔
      b.index = prev.index + 1 ∧ b.previous_hash = prev.hash ∧
      b.hash = calculate_hash H b ∧ d ≤ leading_zeros b.hash :=
  is_valid_block_iff H d b prev

/-! ## Claim C4: replace_chain -/

/-- C4: `replace_chain(candidate)` replaces the chain and returns true iff
the candidate is strictly longer than the current chain and passes
`is_valid_chain`; in every other case it returns false and the state is
fully unchanged; it never accepts an equal-or-shorter chain and never
accepts an invalid chain. -/
theorem claim_C4_replace_chain (H : HashFn) (c : Chain)
    (new_chain : List Block) :
    ((replace_chain H c new_chain).2 = true ↔
      c.chain.length < new_chain.length ∧
      is_valid_chain H c.difficulty new_chain = true) ∧
    ((replace_chain H c new_chain).2 = true →
      (replace_chain H c new_chain).1 = { c with chain := new_chain }) ∧
    ((replace_chain H c new_chain).2 = false →
      (replace_chain H c new_chain).1 = c) ∧
    (new_chain.length ≤ c.chain.length →
      (replace_chain H c new_chain).2 = false) ∧
    (is_valid_chain H c.difficulty new_chain = false →
      (replace_chain H c new_chain).2 = false) := by
  by_cases h1 : new_chain.length ≤ c.chain.length
  · simp [replace_chain, h1]
    try omega
  · by_cases h2 : is_valid_chain H c.difficulty new_chain = true
    · simp [replace_chain, h1, h2]
      omega
    · simp only [Bool.not_eq_true] at h2
      simp [replace_chain, h1, h2]

/-! ## Claim C9: find_common_ancestor -/

/-- Length of the common hash-equal position-wise block run of two chains:
the loop counter value at which `find_common_ancestor`'s comparison loop
stops (either on a hash mismatch or on exhausting the shorter chain). -/
def matching_len : List Block → List Block → Nat
  | a :: as_, b :: bs => if a.hash = b.hash then matching_len as_ bs + 1 else 0
  | _, _ => 0

theorem fca_go_eq : ∀ (as_ bs : List Block) (i : Nat),
    fca_go as_ bs i = (i : Int) + matching_len as_ bs - 1 := by
  intro as_
  induction as_ with
  | nil => intro bs i; cases bs <;> simp [fca_go, matching_len]
  | cons a t ih =>
    intro bs i
    cases bs with
    | nil => simp [fca_go, matching_len]
    | cons b u =>
      simp only [fca_go, matching_len]
      by_cases hh : a.hash = b.hash
      · rw [if_neg (by simpa using hh), if_pos hh, ih]
        push_cast
        ring
      · rw [if_pos (by simpa using hh), if_neg hh]
        by_cases hi : i = 0 <;> simp [hi]

theorem matching_len_of_all_eq : ∀ (as_ bs : List Block),
    (∀ j, j < min as_.length bs.length →
      (as_.getD j default).hash = (bs.getD j default).hash) →
    matching_len as_ bs = min as_.length bs.length := by
  intro as_
  induction as_ with
  | nil => intro bs _; cases bs <;> simp [matching_len]
  | cons a t ih =>
    intro bs hall
    cases bs with
    | nil => simp [matching_len]
    | cons b u =>
      have h0 := hall 0 (by simp)
      simp only [List.getD_cons_zero] at h0
      simp only [matching_len, if_pos h0]
      rw [ih u ?_]
      · simp [Nat.succ_min_succ]
      · intro j hj
        have := hall (j + 1) (by simp [Nat.succ_min_succ]; omega)
        simpa using this

theorem matching_len_of_first_diff : ∀ (as_ bs : List Block) (j : Nat),
    j < min as_.length bs.length →
    (∀ i, i < j → (as_.getD i default).hash = (bs.getD i default).hash) →
    (as_.getD j default).hash ≠ (bs.getD j default).hash →
    matching_len as_ bs = j := by
  intro as_
  induction as_ with
  | nil => intro bs j hj; simp at hj
  | cons a t ih =>
    intro bs j hj hpre hdiffj
    cases bs with
    | nil => simp at hj
    | cons b u =>
      cases j with
      | zero =>
        simp only [List.getD_cons_zero] at hdiffj
        simp [matching_len, hdiffj]
      | succ j =>
        have h0 := hpre 0 (by omega)
        simp only [List.getD_cons_zero] at h0
        simp only [matching_len, if_pos h0]
        rw [ih u j ?_ ?_ ?_]
        · simp only [List.length_cons, Nat.succ_min_succ] at hj
          omega
        · intro i hi
          have := hpre (i + 1) (by omega)
          simpa using this
        · simpa using hdiffj

/-- C9: `find_common_ancestor` compares hashes position by position over
the overlap of the two chains; it returns `j - 1` at the first mismatch
position `j` (hence `-1` when the genesis blocks already differ), and
`min(len) - 1` when no mismatch occurs in the overlap. -/
theorem claim_C9_find_common_ancestor (c : Chain) (competing : List Block) :
    (∀ j, j < min c.chain.length competing.length →
      (∀ i, i < j →
        (c.chain.getD i default).hash = (competing.getD i default).hash) →
      (c.chain.getD j default).hash ≠ (competing.getD j default).hash →
      find_common_ancestor c competing = (j : Int) - 1) ∧
    ((∀ j, j < min c.chain.length competing.length →
        (c.chain.getD j default).hash = (competing.getD j default).hash) →
      find_common_ancestor c competing =
        (min c.chain.length competing.length : Int) - 1) := by
  constructor
  · intro j hj hpre hdiffj
    rw [find_common_ancestor, fca_go_eq,
      matching_len_of_first_diff c.chain competing j hj hpre hdiffj]
    simp
  · intro hall
    rw [find_common_ancestor, fca_go_eq, matching_len_of_all_eq c.chain competing hall]
    simp

/-! ## Claims C7 and C10: fork_detection_and_resolution -/

/-- C7: the decision table of `fork_detection_and_resolution` comparing
the received block's index to the chain length `L`: `index > L` gives
(false, need sync) with no mutation; `index == L` appends and returns true
exactly when the block validates against the latest block, else (false,
no mutation); `index < L` with equal hash is a no-op; unequal hash at
index 0 keeps the local chain; unequal hash at index > 0 with matching
predecessor linkage reports a fork needing full chain comparison, with no
mutation. -/
theorem claim_C7_fork_detection_decision_table (H : HashFn) (c : Chain)
    (b : Block) :
    (c.chain.length < b.index →
      fork_detection_and_resolution H c b =
        some (c, false, "Need to sync blocks")) ∧
    (∀ latest, c.chain.getLast? = some latest → b.index = c.chain.length →
      (is_valid_block H c.difficulty b latest = true →
        fork_detection_and_resolution H c b =
          some ({ c with chain := c.chain ++ [b] }, true,
            "Block added to chain")) ∧
      (is_valid_block H c.difficulty b latest = false →
        fork_detection_and_resolution H c b =
          some (c, false, "Invalid next block"))) ∧
    (b.index < c.chain.length →
      (c.chain.getD b.index default).hash = b.hash →
      fork_detection_and_resolution H c b =
        some (c, false, "Block already exists in our chain")) ∧
    (b.index < c.chain.length →
      (c.chain.getD b.index default).hash ≠ b.hash → b.index = 0 →
      fork_detection_and_resolution H c b =
        some (c, false, "Genesis block conflict, keeping our chain")) ∧
    (b.index < c.chain.length →
      (c.chain.getD b.index default).hash ≠ b.hash → 0 < b.index →
      b.previous_hash = (c.chain.getD (b.index - 1) default).hash →
      fork_detection_and_resolution H c b =
        some (c, false, "Fork detected, need full chain comparison")) := by
  refine ⟨?_, ?_, ?_, ?_, ?_⟩
  · intro hgt
    have h1 : ¬ b.index < c.chain.length := by omega
    have h2 : ¬ b.index = c.chain.length := by omega
    simp only [fork_detection_and_resolution]
    rw [if_neg h1, if_neg h2]
  · intro latest hl hidx
    have h1 : ¬ b.index < c.chain.length := by omega
    constructor
    · intro hv
      simp only [fork_detection_and_resolution, if_neg h1, if_pos hidx, hl]
      simp [hv]
    · intro hv
      simp only [fork_detection_and_resolution, if_neg h1, if_pos hidx, hl]
      simp [hv]
  · intro hlt hhash
    simp only [fork_detection_and_resolution]
    rw [if_pos hlt, if_pos hhash]
  · intro hlt hhash hz
    simp only [fork_detection_and_resolution]
    rw [if_pos hlt, if_neg hhash, if_pos hz]
  · intro hlt hhash hpos hprev
    have h0 : ¬ b.index = 0 := by omega
    simp only [fork_detection_and_resolution]
    rw [if_pos hlt, if_neg hhash, if_neg h0, if_pos hprev]

/-- C10: `fork_detection_and_resolution` mutates the chain only in the
single append case (index equal to the length and the block valid against
the latest block); in every other case — the fall-through "Unknown state
in fork resolution" case included — it returns false and leaves the block
sequence, the pending queue and the difficulty unchanged. -/
theorem claim_C10_fork_detection_frame (H : HashFn) (c : Chain) (b : Block)
    (c' : Chain) (r : Bool) (msg : String)
    (hout : fork_detection_and_resolution H c b = some (c', r, msg)) :
    (r = true → b.index = c.chain.length ∧
      (∃ latest, c.chain.getLast? = some latest ∧
        is_valid_block H c.difficulty b latest = true) ∧
      c' = { c with chain := c.chain ++ [b] }) ∧
    (r = false → c' = c) ∧
    (c'.pending_data = c.pending_data ∧ c'.difficulty = c.difficulty) ∧
    (b.index < c.chain.length →
      (c.chain.getD b.index default).hash ≠ b.hash →
      b.index ≠ 0 →
      b.previous_hash ≠ (c.chain.getD (b.index - 1) default).hash →
      r = false ∧ msg = "Unknown state in fork resolution" ∧ c' = c) := by
  by_cases h1 : b.index < c.chain.length
  · simp only [fork_detection_and_resolution, if_pos h1] at hout
    by_cases h2 : (c.chain.getD b.index default).hash = b.hash
    · rw [if_pos h2] at hout
      simp only [Option.some.injEq, Prod.mk.injEq] at hout
      obtain ⟨hc, hr, -⟩ := hout
      subst hc
      subst hr
      refine ⟨by simp, fun _ => rfl, ⟨rfl, rfl⟩, ?_⟩
      intro _ hne
      exact absurd h2 hne
    · rw [if_neg h2] at hout
      by_cases h3 : b.index = 0
      · rw [if_pos h3] at hout
        simp only [Option.some.injEq, Prod.mk.injEq] at hout
        obtain ⟨hc, hr, -⟩ := hout
        subst hc
        subst hr
        refine ⟨by simp, fun _ => rfl, ⟨rfl, rfl⟩, ?_⟩
        intro _ _ hz
        exact absurd h3 hz
      · rw [if_neg h3] at hout
        by_cases h4 : b.previous_hash = (c.chain.getD (b.index - 1) default).hash
        · rw [if_pos h4] at hout
          simp only [Option.some.injEq, Prod.mk.injEq] at hout
          obtain ⟨hc, hr, -⟩ := hout
          subst hc
          subst hr
          refine ⟨by simp, fun _ => rfl, ⟨rfl, rfl⟩, ?_⟩
          intro _ _ _ hp
          exact absurd h4 hp
        · rw [if_neg h4] at hout
          simp only [Option.some.injEq, Prod.mk.injEq] at hout
          obtain ⟨hc, hr, hm⟩ := hout
          subst hc
          subst hr
          exact ⟨by simp, fun _ => rfl, ⟨rfl, rfl⟩,
            fun _ _ _ _ => ⟨rfl, hm.symm, rfl⟩⟩
  · by_cases h5 : b.index = c.chain.length
    · cases hgl : c.chain.getLast? with
      | none =>
        simp only [fork_detection_and_resolution, if_neg h1, if_pos h5, hgl] at hout
        simp at hout
      | some latest =>
        simp only [fork_detection_and_resolution, if_neg h1, if_pos h5, hgl] at hout
        by_cases h6 : is_valid_block H c.difficulty b latest = true
        · rw [if_pos h6] at hout
          simp only [Option.some.injEq, Prod.mk.injEq] at hout
          obtain ⟨hc, hr, -⟩ := hout
          subst hc
          subst hr
          refine ⟨fun _ => ⟨h5, ⟨latest, rfl, h6⟩, rfl⟩, by simp, ⟨rfl, rfl⟩, ?_⟩
          intro hlt
          exact absurd hlt h1
        · rw [if_neg h6] at hout
          simp only [Option.some.injEq, Prod.mk.injEq] at hout
          obtain ⟨hc, hr, -⟩ := hout
          subst hc
          subst hr
          refine ⟨by simp, fun _ => rfl, ⟨rfl, rfl⟩, ?_⟩
          intro hlt
          exact absurd hlt h1
    · simp only [fork_detection_and_resolution, if_neg h1, if_neg h5] at hout
      simp only [Option.some.injEq, Prod.mk.injEq] at hout
      obtain ⟨hc, hr, -⟩ := hout
      subst hc
      subst hr
      refine ⟨by simp, fun _ => rfl, ⟨rfl, rfl⟩, ?_⟩
      intro hlt
      exact absurd hlt h1

/-! ## Claim C6: mine_pending_data -/

/-- C6: `mine_pending_data` on an empty queue returns no block and leaves
the state unchanged; a no-block outcome happens only on an empty queue
(all-or-nothing: the queue is never cleared without an appended block);
and a mined block has index `len(chain)`, data holding the queue snapshot
and the miner address, `previous_hash` equal to the latest block's hash,
a hash meeting the difficulty, and is appended while the queue is
cleared. -/
theorem claim_C6_mine_pending_data (H : HashFn) (fuel : Nat) (c : Chain)
    (miner : List Char) (ts : Nat) :
    (c.pending_data = [] →
      mine_pending_data H fuel c miner ts = some (none, c)) ∧
    (∀ c', mine_pending_data H fuel c miner ts = some (none, c') →
      c' = c ∧ c.pending_data = []) ∧
    (∀ latest, c.chain.getLast? = some latest →
      ∀ m c', mine_pending_data H fuel c miner ts = some (some m, c') →
        c' = { c with chain := c.chain ++ [m], pending_data := [] } ∧
        m.index = c.chain.length ∧
        m.data = BData.mined c.pending_data miner ∧
        m.previous_hash = latest.hash ∧
        c.difficulty ≤ leading_zeros m.hash) := by
  refine ⟨?_, ?_, ?_⟩
  · intro he
    simp [mine_pending_data, he]
  · intro c' hout
    by_cases hp : c.pending_data.isEmpty = true
    · have he : c.pending_data = [] := by simpa using hp
      simp only [mine_pending_data, hp, if_true] at hout
      simp only [Option.some.injEq, Prod.mk.injEq] at hout
      exact ⟨hout.2.symm, he⟩
    · have hpf : c.pending_data.isEmpty = false := by simpa using hp
      simp only [mine_pending_data, hpf, Bool.false_eq_true, if_false] at hout
      cases hgl : c.chain.getLast? with
      | none => rw [hgl] at hout; simp at hout
      | some latest =>
        rw [hgl] at hout
        simp only [] at hout
        cases hmine : mine_block H c.difficulty fuel (mkBlock H c.chain.length ts
            (BData.mined c.pending_data miner) latest.hash 0) with
        | none => simp [hmine] at hout
        | some m2 => simp [hmine] at hout
  · intro latest hl m c' hout
    by_cases hp : c.pending_data.isEmpty = true
    · simp [mine_pending_data, hp] at hout
    · have hpf : c.pending_data.isEmpty = false := by simpa using hp
      simp only [mine_pending_data, hpf, Bool.false_eq_true, if_false, hl] at hout
      cases hmine : mine_block H c.difficulty fuel (mkBlock H c.chain.length ts
          (BData.mined c.pending_data miner) latest.hash 0) with
      | none => simp [hmine] at hout
      | some m2 =>
        simp only [hmine, Option.some.injEq, Prod.mk.injEq] at hout
        obtain ⟨hm, hc⟩ := hout
        subst hm
        have hf := mine_block_fields H c.difficulty fuel _ m2 hmine
        refine ⟨hc.symm, ?_, ?_, ?_, ?_⟩
        · simpa [mkBlock] using hf.1
        · simpa [mkBlock] using hf.2.2.1
        · simpa [mkBlock] using hf.2.2.2.1
        · rw [← meetsDifficulty_iff]
          exact hf.2.2.2.2

/-! ## Concrete fixtures for witnesses and counterexamples

`wH` is a concrete hash function: the digest of a block with index `i` is
`i` copies of `'a'`, followed by `tag` copies of `'c'` for an opaque
payload with that tag, so blocks at different positions or with different
payload tags get distinct hashes. -/

/-- Test hash function (a stand-in for SHA-256 on concrete inputs). -/
def wH : HashFn := fun i _ dat _ _ =>
  List.replicate i 'a' ++
    (match dat with
     | BData.payload tag => List.replicate tag 'c'
     | _ => [])

/-- Test genesis block, mined at difficulty 0 (hash `[]`). -/
def wGen : Block := mkBlock wH 0 0 BData.genesisMsg (List.replicate 64 '0') 0

/-- Valid successor of `wGen` under `wH` (hash `['a', 'c']`). -/
def wNext : Block := mkBlock wH 1 0 (BData.payload 1) wGen.hash 0

/-- A one-block chain at difficulty 0. -/
def wChain : Chain := { chain := [wGen], difficulty := 0, pending_data := [] }

/-- A two-block valid chain at difficulty 0. -/
def wChain2 : Chain := { chain := [wGen, wNext], difficulty := 0, pending_data := [] }

/-- A foreign block at index 1 whose hash and previous-hash match nothing
in `wChain2`: exercises the fall-through "Unknown state" branch. -/
def wForeign : Block :=
  { index := 1, timestamp := 0, data := BData.payload 3,
    previous_hash := ['z'], nonce := 0, hash := ['q'] }

/-- One-block chain with one pending payload, for the mining witness. -/
def mineChain : Chain :=
  { chain := [wGen], difficulty := 0, pending_data := [BData.payload 7] }

/-- The block `mine_pending_data` produces from `mineChain` under `wH`. -/
def wMined : Block :=
  mkBlock wH 1 5 (BData.mined [BData.payload 7] ['m']) wGen.hash 0

/-- The chain state after mining `mineChain`. -/
def wMinedChain : Chain :=
  { chain := [wGen, wMined], difficulty := 0, pending_data := [] }

/-- Witness for C6: a concrete mining run appends the block and clears the
queue, with all the claimed fields. -/
theorem claim_C6_witness :
    mineChain.chain.getLast? = some wGen ∧
    mine_pending_data wH 0 mineChain ['m'] 5 = some (some wMined, wMinedChain) ∧
    (wMinedChain =
        { mineChain with chain := mineChain.chain ++ [wMined], pending_data := [] } ∧
      wMined.index = mineChain.chain.length ∧
      wMined.data = BData.mined mineChain.pending_data ['m'] ∧
      wMined.previous_hash = wGen.hash ∧
      mineChain.difficulty ≤ leading_zeros wMined.hash) :=
  ⟨rfl, rfl,
    (claim_C6_mine_pending_data wH 0 mineChain ['m'] 5).2.2 wGen rfl wMined
      wMinedChain rfl⟩

/-- Witness for C7: applying the decision table on a concrete chain and a
concrete valid next block appends it. -/
theorem claim_C7_witness :
    wChain.chain.getLast? = some wGen ∧ wNext.index = wChain.chain.length ∧
    is_valid_block wH wChain.difficulty wNext wGen = true ∧
    fork_detection_and_resolution wH wChain wNext =
      some ({ wChain with chain := wChain.chain ++ [wNext] }, true,
        "Block added to chain") :=
  ⟨rfl, rfl, rfl,
    ((claim_C7_fork_detection_decision_table wH wChain wNext).2.1 wGen rfl rfl).1
      rfl⟩

/-- Witness for C9: concrete chains differing first at position 1 have
common ancestor 0. -/
theorem claim_C9_witness :
    (1 < min
        (Chain.mk [⟨0, 0, BData.payload 0, [], 0, ['g']⟩,
          ⟨1, 0, BData.payload 0, [], 0, ['x']⟩] 0 []).chain.length
        [⟨0, 0, BData.payload 0, [], 0, ['g']⟩,
          (⟨1, 0, BData.payload 0, [], 0, ['y']⟩ : Block)].length) ∧
    find_common_ancestor
      (Chain.mk [⟨0, 0, BData.payload 0, [], 0, ['g']⟩,
        ⟨1, 0, BData.payload 0, [], 0, ['x']⟩] 0 [])
      [⟨0, 0, BData.payload 0, [], 0, ['g']⟩,
        ⟨1, 0, BData.payload 0, [], 0, ['y']⟩] = (1 : Int) - 1 :=
  ⟨by decide,
    (claim_C9_find_common_ancestor
      (Chain.mk [⟨0, 0, BData.payload 0, [], 0, ['g']⟩,
        ⟨1, 0, BData.payload 0, [], 0, ['x']⟩] 0 [])
      [⟨0, 0, BData.payload 0, [], 0, ['g']⟩,
        ⟨1, 0, BData.payload 0, [], 0, ['y']⟩]).1 1 (by decide)
      (fun i hi => by
        have h0 : i = 0 := by omega
        subst h0
        decide)
      (by decide)⟩

/-- Witness for C10: the fall-through "Unknown state" case on a concrete
input returns false with the state unchanged. -/
theorem claim_C10_witness :
    fork_detection_and_resolution wH wChain2 wForeign =
      some (wChain2, false, "Unknown state in fork resolution") ∧
    (false = false ∧
      "Unknown state in fork resolution" = "Unknown state in fork resolution" ∧
      wChain2 = wChain2) :=
  ⟨rfl,
    (claim_C10_fork_detection_frame wH wChain2 wForeign wChain2 false
      "Unknown state in fork resolution" rfl).2.2.2 (by decide) (by decide)
      (by decide) (by decide)⟩

/-! ## Claim C5: resolve_fork -/

/-- Running maximum of candidate lengths: starting from `b`, take a
candidate's length whenever it validates and beats the running value.
Equals `max(b, max length of a valid candidate longer than b)`. -/
def maxLenFrom (valid : List Block → Bool) (b : Nat)
    (l : List (List Block)) : Nat :=
  l.foldl (fun m cd => if valid cd && decide (m < cd.length) then cd.length else m) b

/-- Spec-side selection, written from the claim's words: among candidates
that fully validate and are strictly longer than `origLen`, the first one
achieving the maximum length (`none` when there is no such candidate). -/
def specFirstBest (valid : List Block → Bool) (origLen : Nat)
    (cands : List (List Block)) : Option (List Block) :=
  if maxLenFrom valid origLen cands = origLen then none
  else (cands.filter (fun cd => valid cd &&
    decide (cd.length = maxLenFrom valid origLen cands))).head?

theorem maxLenFrom_ge (valid : List Block → Bool) :
    ∀ (l : List (List Block)) (b : Nat), b ≤ maxLenFrom valid b l := by
  intro l
  induction l with
  | nil => intro b; simp [maxLenFrom]
  | cons cd rest ih =>
    intro b
    simp only [maxLenFrom, List.foldl_cons]
    by_cases hc : (valid cd && decide (b < cd.length)) = true
    · rw [if_pos hc]
      have hlt : b < cd.length := by
        simp only [Bool.and_eq_true, decide_eq_true_eq] at hc
        exact hc.2
      exact le_trans (le_of_lt hlt) (ih cd.length)
    · rw [if_neg hc]
      exact ih b

theorem resolve_fork_loop_spec (H : HashFn) (d : Nat) :
    ∀ (cands : List (List Block)) (b : Nat) (best : Option (List Block)),
      resolve_fork_loop H d b best cands =
        (maxLenFrom (valid_from_scratch H d) b cands,
         if maxLenFrom (valid_from_scratch H d) b cands = b then best
         else (cands.filter (fun cd => valid_from_scratch H d cd &&
           decide (cd.length =
             maxLenFrom (valid_from_scratch H d) b cands))).head?) := by
  intro cands
  induction cands with
  | nil =>
    intro b best
    simp [resolve_fork_loop, maxLenFrom]
  | cons cd rest ih =>
    intro b best
    by_cases h1 : cd.length ≤ b
    · have hnc : ¬ b < cd.length := by omega
      have hstep : maxLenFrom (valid_from_scratch H d) b (cd :: rest) =
          maxLenFrom (valid_from_scratch H d) b rest := by
        simp only [maxLenFrom, List.foldl_cons]
        congr 1
        simp [hnc]
      simp only [resolve_fork_loop]
      rw [if_pos h1, ih b best, hstep]
      by_cases hM : maxLenFrom (valid_from_scratch H d) b rest = b
      · rw [if_pos hM, if_pos hM]
      · rw [if_neg hM, if_neg hM]
        have hMgt : b < maxLenFrom (valid_from_scratch H d) b rest :=
          lt_of_le_of_ne (maxLenFrom_ge _ rest b) (Ne.symm hM)
        have hcd : (valid_from_scratch H d cd && decide (cd.length =
            maxLenFrom (valid_from_scratch H d) b rest)) = false := by
          have hne : cd.length ≠ maxLenFrom (valid_from_scratch H d) b rest := by
            omega
          simp [hne]
        simp [List.filter_cons, hcd]
    · simp only [resolve_fork_loop]
      rw [if_neg h1]
      by_cases h2 : valid_from_scratch H d cd = true
      · have hcond : (valid_from_scratch H d cd && decide (b < cd.length)) = true := by
          simp only [h2, Bool.true_and, decide_eq_true_eq]
          omega
        rw [if_pos hcond, ih cd.length (some cd)]
        have hstep : maxLenFrom (valid_from_scratch H d) b (cd :: rest) =
            maxLenFrom (valid_from_scratch H d) cd.length rest := by
          simp only [maxLenFrom, List.foldl_cons]
          congr 1
          exact if_pos hcond
        rw [hstep]
        have hge : cd.length ≤ maxLenFrom (valid_from_scratch H d) cd.length rest :=
          maxLenFrom_ge _ rest cd.length
        have hMneb : maxLenFrom (valid_from_scratch H d) cd.length rest ≠ b := by
          omega
        rw [if_neg hMneb]
        by_cases hMeq : maxLenFrom (valid_from_scratch H d) cd.length rest = cd.length
        · rw [if_pos hMeq]
          have hcdp : (valid_from_scratch H d cd && decide (cd.length =
              maxLenFrom (valid_from_scratch H d) cd.length rest)) = true := by
            simp [h2, hMeq]
          simp [List.filter_cons, hcdp]
        · rw [if_neg hMeq]
          have hne : cd.length ≠ maxLenFrom (valid_from_scratch H d) cd.length rest :=
            fun he => hMeq he.symm
          have hcdp : (valid_from_scratch H d cd && decide (cd.length =
              maxLenFrom (valid_from_scratch H d) cd.length rest)) = false := by
            simp [hne]
          simp [List.filter_cons, hcdp]
      · have h2f : valid_from_scratch H d cd = false := by simpa using h2
        have hcond : (valid_from_scratch H d cd && decide (b < cd.length)) = false := by
          simp [h2f]
        rw [if_neg (by simp [hcond] : ¬ (valid_from_scratch H d cd &&
          decide (b < cd.length)) = true), ih b best]
        have hstep : maxLenFrom (valid_from_scratch H d) b (cd :: rest) =
            maxLenFrom (valid_from_scratch H d) b rest := by
          simp only [maxLenFrom, List.foldl_cons]
          congr 1
          simp [h2f]
        rw [hstep]
        by_cases hM : maxLenFrom (valid_from_scratch H d) b rest = b
        · rw [if_pos hM, if_pos hM]
        · rw [if_neg hM, if_neg hM]
          have hcd : (valid_from_scratch H d cd && decide (cd.length =
              maxLenFrom (valid_from_scratch H d) b rest)) = false := by
            simp [h2f]
          simp [List.filter_cons, hcd]

theorem resolve_fork_snd_eq (H : HashFn) (c : Chain)
    (cands : List (List Block)) :
    (resolve_fork_loop H c.difficulty c.chain.length none cands).2 =
      specFirstBest (valid_from_scratch H c.difficulty) c.chain.length cands := by
  rw [resolve_fork_loop_spec, specFirstBest]

theorem specFirstBest_mem (valid : List Block → Bool) (origLen : Nat)
    (cands : List (List Block)) (bc : List Block)
    (h : specFirstBest valid origLen cands = some bc) :
    bc ∈ cands ∧ valid bc = true ∧ origLen < bc.length := by
  rw [specFirstBest] at h
  by_cases hM : maxLenFrom valid origLen cands = origLen
  · rw [if_pos hM] at h
    simp at h
  · rw [if_neg hM] at h
    have hMgt : origLen < maxLenFrom valid origLen cands :=
      lt_of_le_of_ne (maxLenFrom_ge valid cands origLen) (Ne.symm hM)
    cases hf : cands.filter (fun cd => valid cd &&
        decide (cd.length = maxLenFrom valid origLen cands)) with
    | nil => rw [hf] at h; simp at h
    | cons x xs =>
      rw [hf] at h
      simp only [List.head?_cons, Option.some.injEq] at h
      have hmemf : bc ∈ cands.filter (fun cd => valid cd &&
          decide (cd.length = maxLenFrom valid origLen cands)) := by
        rw [hf, ← h]
        exact List.mem_cons_self _ _
      have := List.mem_filter.mp hmemf
      obtain ⟨hmem, hpred⟩ := this
      simp only [Bool.and_eq_true, decide_eq_true_eq] at hpred
      exact ⟨hmem, hpred.1, by omega⟩

/-- C5: `resolve_fork` returns true iff the local chain was replaced; a
candidate wins only if it validates from scratch (genesis with index 0
and the 64-`'0'` sentinel previous hash, each later block valid against
its predecessor within the candidate) and is strictly longer than the
original local chain — never one of equal length; and the installed chain
is the first candidate achieving the maximum length among the
strictly-longer fully-valid candidates (`specFirstBest`). -/
theorem claim_C5_resolve_fork (H : HashFn) (c : Chain)
    (cands : List (List Block)) :
    ((resolve_fork H c cands).2 = true ↔
      (resolve_fork H c cands).1.chain ≠ c.chain) ∧
    ((resolve_fork H c cands).2 = false → (resolve_fork H c cands).1 = c) ∧
    ((resolve_fork H c cands).2 = true →
      ∃ bc, bc ∈ cands ∧ (resolve_fork H c cands).1 = { c with chain := bc } ∧
        valid_from_scratch H c.difficulty bc = true ∧
        c.chain.length < bc.length) ∧
    (resolve_fork H c cands).1.chain =
      ((specFirstBest (valid_from_scratch H c.difficulty) c.chain.length
        cands).getD c.chain) := by
  cases hsb : specFirstBest (valid_from_scratch H c.difficulty) c.chain.length
      cands with
  | none =>
    have hrf : resolve_fork H c cands = (c, false) := by
      simp only [resolve_fork]
      rw [resolve_fork_snd_eq, hsb]
    rw [hrf]
    refine ⟨by simp, fun _ => rfl, by simp, by simp [hsb]⟩
  | some bc =>
    obtain ⟨hmem, hval, hlen⟩ := specFirstBest_mem _ _ _ _ hsb
    have hrf : resolve_fork H c cands = ({ c with chain := bc }, true) := by
      simp only [resolve_fork]
      rw [resolve_fork_snd_eq, hsb]
    rw [hrf]
    refine ⟨?_, by simp, fun _ => ⟨bc, hmem, rfl, hval, hlen⟩, by simp [hsb]⟩
    constructor
    · intro _
      show bc ≠ c.chain
      intro he
      have := congrArg List.length he
      omega
    · intro _
      rfl

/-- Witness for C5: with no candidates, `resolve_fork` returns false and
leaves the state unchanged. -/
theorem claim_C5_witness :
    (resolve_fork wH wChain ([] : List (List Block))).2 = false ∧
    (resolve_fork wH wChain ([] : List (List Block))).1 = wChain :=
  ⟨rfl, (claim_C5_resolve_fork wH wChain []).2.1 rfl⟩

/-- Witness for C4: a concrete strictly-longer valid candidate is
installed by `replace_chain`. -/
theorem claim_C4_witness :
    (replace_chain wH wChain [wGen, wNext]).2 = true ∧
    (replace_chain wH wChain [wGen, wNext]).1 =
      { wChain with chain := [wGen, wNext] } :=
  ⟨rfl, (claim_C4_replace_chain wH wChain [wGen, wNext]).2.1 rfl⟩

/-! ## Claim C3: sync_missing_blocks, append branch -/

theorem sync_append_loop_ok (H : HashFn) (d s : Nat) (comp : List Block) :
    ∀ (n i : Nat) (cur : List Block), comp.length - i ≤ n → i ≤ comp.length →
      (∀ j, i ≤ j → j < comp.length →
        (j = 0 ∨ is_valid_block H d (comp.getD j default)
          (comp.getD (j - 1) default) = true)) →
      sync_append_loop H d s comp n cur i =
        (cur ++ comp.drop i, true, comp.length) := by
  intro n
  induction n with
  | zero =>
    intro i cur hn hile _
    have hieq : i = comp.length := by omega
    subst hieq
    simp [sync_append_loop]
  | succ n ih =>
    intro i cur hn hile hok
    by_cases hi : i < comp.length
    · rw [sync_append_loop, if_pos hi, if_pos (hok i (le_refl i) hi)]
      rw [ih (i + 1) (cur ++ [comp.getD i default]) (by omega) (by omega)
        (fun j hj hjl => hok j (by omega) hjl)]
      rw [List.getD_eq_getElem comp default hi, List.append_assoc,
        List.drop_eq_getElem_cons hi]
      rfl
    · rw [sync_append_loop, if_neg hi]
      have hieq : i = comp.length := by omega
      subst hieq
      simp

theorem sync_append_loop_fail (H : HashFn) (d s : Nat) (comp : List Block) :
    ∀ (n i : Nat) (cur : List Block) (j : Nat), comp.length - i ≤ n →
      i ≤ j → j < comp.length →
      ¬(j = 0 ∨ is_valid_block H d (comp.getD j default)
        (comp.getD (j - 1) default) = true) →
      (∀ k, i ≤ k → k < j →
        (k = 0 ∨ is_valid_block H d (comp.getD k default)
          (comp.getD (k - 1) default) = true)) →
      sync_append_loop H d s comp n cur i =
        ((cur ++ (comp.take j).drop i).take s, false, j) := by
  intro n
  induction n with
  | zero =>
    intro i cur j hn hij hjl hbad hpre
    exact absurd hjl (by omega)
  | succ n ih =>
    intro i cur j hn hij hjl hbad hpre
    by_cases hij' : i = j
    · subst hij'
      rw [sync_append_loop, if_pos hjl, if_neg hbad]
      have hd : (comp.take i).drop i = [] :=
        List.drop_eq_nil_of_le (by simp [List.length_take])
      rw [hd, List.append_nil]
    · have hilt : i < j := by omega
      have hi : i < comp.length := by omega
      rw [sync_append_loop, if_pos hi, if_pos (hpre i (le_refl i) hilt)]
      rw [ih (i + 1) (cur ++ [comp.getD i default]) j (by omega) (by omega) hjl
        hbad (fun k hk hkl => hpre k (by omega) hkl)]
      have hlen : i < (comp.take j).length := by
        simp [List.length_take]
        omega
      rw [List.getD_eq_getElem comp default hi, List.append_assoc,
        List.drop_eq_getElem_cons hlen, List.getElem_take]
      rfl

/-- Candidate block 0 for the C3 and C1 counterexamples (content
irrelevant: positions before `fromIndex` are never validated). -/
def cY0 : Block := ⟨0, 0, BData.payload 0, List.replicate 64 '0', 0, []⟩

/-- Candidate block 1: hash-correct under `wH`, but its `previous_hash`
(`['p']`) matches nothing in the local chain. -/
def cY1 : Block := mkBlock wH 1 0 (BData.payload 1) ['p'] 0

/-- Candidate block 2: valid against `cY1` at difficulty 0, but invalid
against the local latest block `wGen`. -/
def cY2 : Block := mkBlock wH 2 0 (BData.payload 2) cY1.hash 0

/-- Candidate block 3: correct linkage to `cY2` but a stored hash that
does not match its recomputed digest — fails validation. -/
def cY3 : Block := ⟨3, 0, BData.payload 3, cY2.hash, 0, ['z']⟩

/-- Valid successor of `wNext` under `wH`, for sync witnesses. -/
def wNext2 : Block := mkBlock wH 2 0 (BData.payload 2) wNext.hash 0

/-- Counterexample for C3: from the one-block chain `wChain` with
`fromIndex = 2 > 1 = len(localChain)`, the sync appends `cY2` (validated
against the candidate's own `cY1`, not against the local latest block,
against which it is invalid), then fails on `cY3`; the rollback
`chain[:2]` keeps the stray block, so the failed sync returns with a
chain of length 2 — not the entry state of length 1 required by the
claim. -/
theorem claim_C3_counterexample :
    (sync_missing_blocks wH wChain [cY0, cY1, cY2, cY3] (2 : Int)).2.1 = false ∧
    (sync_missing_blocks wH wChain [cY0, cY1, cY2, cY3] (2 : Int)).1.chain.length = 2 ∧
    wChain.chain.length = 1 ∧
    is_valid_block wH wChain.difficulty cY2 wGen = false ∧
    (sync_missing_blocks wH wChain [cY0, cY1, cY2, cY3] (2 : Int)).1.chain.getD 1
      default = cY2 :=
  ⟨rfl, rfl, rfl, rfl, rfl⟩

/-- C3 (amended): for `fromIndex ≥ len(localChain)` and
`0 ≤ fromIndex < len(candidateChain)`, `sync_missing_blocks` appends
`candidateChain[fromIndex:]` block by block, validating each block at
candidate position `i > 0` against `candidateChain[i-1]` — the
candidate's own predecessor, not the growing local chain — position 0
being exempt; it succeeds iff all those validations pass, in which case
the appended suffix is exactly `candidateChain[fromIndex:]`; on the first
invalid block it aborts, returns failure, and truncates the local chain
to its first `fromIndex` blocks, which restores the entry state exactly
when `fromIndex` equals the entry length (but may keep appended blocks
when `fromIndex` is larger). -/
theorem claim_C3_amended_sync_append (H : HashFn) (c : Chain)
    (comp : List Block) (s : Nat)
    (hsl : c.chain.length ≤ s) (hs : s < comp.length) :
    ((sync_missing_blocks H c comp (s : Int)).2.1 = true ↔
      (∀ j, s ≤ j → j < comp.length →
        (j = 0 ∨ is_valid_block H c.difficulty (comp.getD j default)
          (comp.getD (j - 1) default) = true))) ∧
    ((sync_missing_blocks H c comp (s : Int)).2.1 = true →
      (sync_missing_blocks H c comp (s : Int)).1.chain = c.chain ++ comp.drop s) ∧
    ((sync_missing_blocks H c comp (s : Int)).2.1 = false →
      ∃ k, (sync_missing_blocks H c comp (s : Int)).1.chain =
        (c.chain ++ (comp.take k).drop s).take s) ∧
    ((sync_missing_blocks H c comp (s : Int)).2.1 = false →
      s = c.chain.length →
      (sync_missing_blocks H c comp (s : Int)).1.chain = c.chain) ∧
    ((sync_missing_blocks H c comp (s : Int)).1.pending_data = c.pending_data ∧
      (sync_missing_blocks H c comp (s : Int)).1.difficulty = c.difficulty) := by
  have hg : ¬((s : Int) < 0 ∨ ((comp.length : Nat) : Int) ≤ (s : Int)) := by
    omega
  have hrun : sync_missing_blocks H c comp (s : Int) =
      match sync_append_loop H c.difficulty s comp (comp.length - s) c.chain s with
      | (nc, true, _) =>
          ({ c with chain := nc }, true,
            "Synced " ++ toString (comp.length - s) ++ " blocks")
      | (nc, false, i) =>
          ({ c with chain := nc }, false,
            "Invalid block at index " ++ toString i ++ " during sync") := by
    simp only [sync_missing_blocks, Int.toNat_natCast]
    rw [if_neg hg, if_pos hsl]
  by_cases hall : ∀ j, s ≤ j → j < comp.length →
      (j = 0 ∨ is_valid_block H c.difficulty (comp.getD j default)
        (comp.getD (j - 1) default) = true)
  · have hloop := sync_append_loop_ok H c.difficulty s comp (comp.length - s) s
      c.chain (le_refl _) (le_of_lt hs) hall
    rw [hrun, hloop]
    exact ⟨iff_of_true rfl hall, fun _ => rfl,
      fun hfalse => Bool.noConfusion hfalse,
      fun hfalse _ => Bool.noConfusion hfalse, rfl, rfl⟩
  · have hex : ∃ j, s ≤ j ∧ j < comp.length ∧
        ¬(j = 0 ∨ is_valid_block H c.difficulty (comp.getD j default)
          (comp.getD (j - 1) default) = true) := by
      by_contra hne
      push_neg at hne
      exact absurd (fun j hj hjl => hne j hj hjl) hall
    obtain ⟨hjs, hjl, hbad⟩ := Nat.find_spec hex
    have hpre : ∀ k, s ≤ k → k < Nat.find hex →
        (k = 0 ∨ is_valid_block H c.difficulty (comp.getD k default)
          (comp.getD (k - 1) default) = true) := by
      intro k hk hkf
      by_contra hbadk
      exact Nat.find_min hex hkf ⟨hk, by omega, hbadk⟩
    have hloop := sync_append_loop_fail H c.difficulty s comp (comp.length - s) s
      c.chain (Nat.find hex) (le_refl _) hjs hjl hbad hpre
    rw [hrun, hloop]
    refine ⟨iff_of_false (fun h => Bool.noConfusion h) (fun h => hbad (h _ hjs hjl)),
      fun htrue => Bool.noConfusion htrue,
      fun _ => ⟨Nat.find hex, rfl⟩, ?_, rfl, rfl⟩
    intro _ hseq
    subst hseq
    exact List.take_left c.chain _

/-- Witness for the amended C3: a concrete successful sync from
`fromIndex = len(localChain)` appends exactly the candidate suffix. -/
theorem claim_C3_witness :
    wChain.chain.length ≤ 1 ∧ 1 < ([wGen, wNext, wNext2] : List Block).length ∧
    (sync_missing_blocks wH wChain [wGen, wNext, wNext2] ((1 : Nat) : Int)).2.1
      = true ∧
    (sync_missing_blocks wH wChain [wGen, wNext, wNext2] ((1 : Nat) : Int)).1.chain
      = wChain.chain ++ ([wGen, wNext, wNext2] : List Block).drop 1 :=
  ⟨by decide, by decide, rfl,
    (claim_C3_amended_sync_append wH wChain [wGen, wNext, wNext2] 1 (by decide)
      (by decide)).2.1 rfl⟩

/-! ## Claim C8: sync_missing_blocks, fork branch -/

theorem calculate_chain_work_eq (seg : List Block) :
    calculate_chain_work seg =
      (seg.map (fun b => 16 ^ leading_zeros b.hash)).sum := by
  have h : ∀ (l : List Block) (acc : Nat),
      l.foldl (fun acc b => acc + 16 ^ leading_zeros b.hash) acc =
        acc + (l.map (fun b => 16 ^ leading_zeros b.hash)).sum := by
    intro l
    induction l with
    | nil => intro acc; simp
    | cons b t ih =>
      intro acc
      simp only [List.foldl_cons, List.map_cons, List.sum_cons, ih]
      omega
  simpa [calculate_chain_work] using h seg 0

/-- C8: for `fromIndex < len(localChain)` (and in candidate range),
`sync_missing_blocks` computes the common ancestor over
`candidateChain[0..fromIndex]`, fails if none exists, and otherwise
replaces the local suffix after the ancestor with the candidate's suffix
iff the candidate suffix's chain work strictly exceeds the local
suffix's, where the chain work of a segment is the sum over its blocks of
`16 ^ (leading hex zero count of the block's hash)`. -/
theorem claim_C8_sync_fork_branch (H : HashFn) (c : Chain) (comp : List Block)
    (s : Nat) (hs : s < comp.length) (hsl : s < c.chain.length) :
    (find_common_ancestor c (comp.take (s + 1)) = -1 →
      sync_missing_blocks H c comp (s : Int) =
        (c, false, "No common ancestor found")) ∧
    (∀ a : Nat, find_common_ancestor c (comp.take (s + 1)) = (a : Int) →
      (calculate_chain_work (c.chain.drop (a + 1)) <
          calculate_chain_work (comp.drop (a + 1)) →
        sync_missing_blocks H c comp (s : Int) =
          ({ c with chain := c.chain.take (a + 1) ++ comp.drop (a + 1) }, true,
            "Chain replaced after fork at index " ++ toString a)) ∧
      (¬ calculate_chain_work (c.chain.drop (a + 1)) <
          calculate_chain_work (comp.drop (a + 1)) →
        sync_missing_blocks H c comp (s : Int) =
          (c, false, "Our chain has more work"))) ∧
    (∀ seg : List Block, calculate_chain_work seg =
      (seg.map (fun b => 16 ^ leading_zeros b.hash)).sum) := by
  have hg : ¬((s : Int) < 0 ∨ ((comp.length : Nat) : Int) ≤ (s : Int)) := by
    omega
  have hnb : ¬ (c.chain.length ≤ s) := by omega
  refine ⟨?_, ?_, calculate_chain_work_eq⟩
  · intro ha
    simp only [sync_missing_blocks, Int.toNat_natCast]
    rw [if_neg hg, if_neg hnb, if_pos ha]
  · intro a ha
    have hne : ¬(find_common_ancestor c (comp.take (s + 1)) = -1) := by
      rw [ha]
      omega
    constructor
    · intro hw
      simp only [sync_missing_blocks, Int.toNat_natCast]
      rw [if_neg hg, if_neg hnb, if_neg hne, ha]
      simp only [Int.toNat_natCast]
      rw [if_pos hw]
    · intro hw
      simp only [sync_missing_blocks, Int.toNat_natCast]
      rw [if_neg hg, if_neg hnb, if_neg hne, ha]
      simp only [Int.toNat_natCast]
      rw [if_neg hw]

/-- A competing block at index 1 with a stored hash (`['q', 'q']`) that
differs from `wNext`'s, for the fork-branch witness. -/
def wAlt1 : Block := ⟨1, 0, BData.payload 5, wGen.hash, 0, ['q', 'q']⟩

/-- Witness for C8: a concrete fork at index 1 with common ancestor 0 and
no chain-work advantage keeps the local chain. -/
theorem claim_C8_witness :
    (1 < ([wGen, wAlt1] : List Block).length ∧ 1 < wChain2.chain.length) ∧
    find_common_ancestor wChain2 (([wGen, wAlt1] : List Block).take (1 + 1)) =
      ((0 : Nat) : Int) ∧
    sync_missing_blocks wH wChain2 [wGen, wAlt1] ((1 : Nat) : Int) =
      (wChain2, false, "Our chain has more work") :=
  ⟨⟨by decide, by decide⟩, by decide,
    ((claim_C8_sync_fork_branch wH wChain2 [wGen, wAlt1] 1 (by decide)
      (by decide)).2.1 0 (by decide)).2 (by decide)⟩

/-! ## Claim C1: the structural invariant under the mutating operations -/

theorem chainInv_append_valid (H : HashFn) (c : Chain) (b latest : Block)
    (hinv : chainInv c) (hl : c.chain.getLast? = some latest)
    (hv : is_valid_block H c.difficulty b latest = true) :
    chainOk c.difficulty (c.chain ++ [b]) := by
  obtain ⟨hlen, hlast⟩ := getLast?_eq_get_sub_one _ _ hl
  rw [is_valid_block_iff] at hv
  refine chainOk_append c.difficulty c.chain b latest hinv hl ?_ hv.2.1 hv.2.2.2
  have hidx := hinv.2.1 (c.chain.length - 1) (by omega)
  rw [hv.1, hlast, hidx]
  omega

theorem fork_detection_mutation (H : HashFn) (c : Chain) (b : Block)
    (c' : Chain) (r : Bool) (msg : String)
    (hout : fork_detection_and_resolution H c b = some (c', r, msg)) :
    c' = c ∨ ∃ latest, c.chain.getLast? = some latest ∧
      is_valid_block H c.difficulty b latest = true ∧
      c' = { c with chain := c.chain ++ [b] } := by
  by_cases h1 : b.index < c.chain.length
  · simp only [fork_detection_and_resolution, if_pos h1] at hout
    refine Or.inl ?_
    by_cases h2 : (c.chain.getD b.index default).hash = b.hash
    · rw [if_pos h2] at hout
      simp only [Option.some.injEq, Prod.mk.injEq] at hout
      exact hout.1.symm
    · rw [if_neg h2] at hout
      by_cases h3 : b.index = 0
      · rw [if_pos h3] at hout
        simp only [Option.some.injEq, Prod.mk.injEq] at hout
        exact hout.1.symm
      · rw [if_neg h3] at hout
        by_cases h4 : b.previous_hash = (c.chain.getD (b.index - 1) default).hash
        · rw [if_pos h4] at hout
          simp only [Option.some.injEq, Prod.mk.injEq] at hout
          exact hout.1.symm
        · rw [if_neg h4] at hout
          simp only [Option.some.injEq, Prod.mk.injEq] at hout
          exact hout.1.symm
  · by_cases h5 : b.index = c.chain.length
    · cases hgl : c.chain.getLast? with
      | none =>
        simp only [fork_detection_and_resolution, if_neg h1, if_pos h5, hgl] at hout
        simp at hout
      | some latest =>
        simp only [fork_detection_and_resolution, if_neg h1, if_pos h5, hgl] at hout
        by_cases h6 : is_valid_block H c.difficulty b latest = true
        · rw [if_pos h6] at hout
          simp only [Option.some.injEq, Prod.mk.injEq] at hout
          exact Or.inr ⟨latest, rfl, h6, hout.1.symm⟩
        · rw [if_neg h6] at hout
          simp only [Option.some.injEq, Prod.mk.injEq] at hout
          exact Or.inl hout.1.symm
    · simp only [fork_detection_and_resolution, if_neg h1, if_neg h5] at hout
      simp only [Option.some.injEq, Prod.mk.injEq] at hout
      exact Or.inl hout.1.symm

theorem chainInv_wChain : chainInv wChain := by
  refine ⟨by simp [wChain], ?_, ?_⟩
  · intro i h
    simp only [wChain, List.length_cons, List.length_nil] at h
    have h0 : i = 0 := by omega
    subst h0
    rfl
  · intro i h
    simp only [wChain, List.length_cons, List.length_nil] at h
    omega

/-- A hash-correct block at index 5, pairwise-valid start of a candidate
chain whose indices do not begin at 0. -/
def ceB5 : Block := mkBlock wH 5 0 (BData.payload 0) ['x'] 0

/-- A hash-correct, properly linked successor of `ceB5` at index 6. -/
def ceB6 : Block := mkBlock wH 6 0 (BData.payload 0) ceB5.hash 0

/-- Counterexample for C1: from the invariant-satisfying one-block chain
`wChain`, `replace_chain` accepts the pairwise-valid chain
`[ceB5, ceB6]` whose first block has index 5, breaking
`chain[i].index == i`; and `sync_missing_blocks` with
`fromIndex = 2 > len(localChain)` appends `cY2` (index 2, unlinked to the
local latest block) and reports success, breaking the index and linkage
invariants.  Both refute the claim that every mutating operation
preserves the structural invariant. -/
theorem claim_C1_counterexample :
    chainInv wChain ∧
    (replace_chain wH wChain [ceB5, ceB6]).2 = true ∧
    ¬ chainInv (replace_chain wH wChain [ceB5, ceB6]).1 ∧
    (sync_missing_blocks wH wChain [cY0, cY1, cY2] (2 : Int)).2.1 = true ∧
    ¬ chainInv (sync_missing_blocks wH wChain [cY0, cY1, cY2] (2 : Int)).1 := by
  refine ⟨chainInv_wChain, rfl, ?_, rfl, ?_⟩
  · intro h
    have h5 := h.2.1 0 (by decide)
    exact absurd h5 (by decide)
  · intro h
    have h2 := h.2.1 1 (by decide)
    exact absurd h2 (by decide)

/-- C1 (amended): `mine_pending_data`, `add_block`,
`fork_detection_and_resolution` and `resolve_fork` preserve the
structural invariant (non-empty chain, `chain[i].index == i`,
`chain[i].previous_hash == chain[i-1].hash`, difficulty on every
non-genesis block); `replace_chain` and `sync_missing_blocks` are
excluded, as the counterexample shows they can break it
(`is_valid_chain` never anchors the first block's index at 0, and the
append branch of `sync_missing_blocks` validates only inside the
candidate and can roll back incompletely, while its fork branch splices
an unvalidated suffix chosen by chain work). -/
theorem claim_C1_amended_invariant_preservation (H : HashFn) (c : Chain)
    (hinv : chainInv c) :
    (∀ fuel miner ts ob c', mine_pending_data H fuel c miner ts = some (ob, c') →
      chainInv c') ∧
    (∀ b c' r, add_block H c b = some (c', r) → chainInv c') ∧
    (∀ b c' r msg, fork_detection_and_resolution H c b = some (c', r, msg) →
      chainInv c') ∧
    (∀ cands, chainInv (resolve_fork H c cands).1) := by
  refine ⟨?_, ?_, ?_, ?_⟩
  · intro fuel miner ts ob c' hout
    by_cases hp : c.pending_data.isEmpty = true
    · simp only [mine_pending_data, hp, if_true, Option.some.injEq,
        Prod.mk.injEq] at hout
      rw [← hout.2]
      exact hinv
    · have hpf : c.pending_data.isEmpty = false := by simpa using hp
      simp only [mine_pending_data, hpf, Bool.false_eq_true, if_false] at hout
      cases hgl : c.chain.getLast? with
      | none => rw [hgl] at hout; simp at hout
      | some latest =>
        rw [hgl] at hout
        simp only [] at hout
        cases hmine : mine_block H c.difficulty fuel (mkBlock H c.chain.length ts
            (BData.mined c.pending_data miner) latest.hash 0) with
        | none => simp [hmine] at hout
        | some m =>
          simp only [hmine, Option.some.injEq, Prod.mk.injEq] at hout
          rw [← hout.2]
          have hf := mine_block_fields H c.difficulty fuel _ m hmine
          refine chainOk_append c.difficulty c.chain m latest hinv hgl ?_ ?_ ?_
          · simpa [mkBlock] using hf.1
          · simpa [mkBlock] using hf.2.2.2.1
          · rw [← meetsDifficulty_iff]
            exact hf.2.2.2.2
  · intro b c' r hout
    cases hgl : c.chain.getLast? with
    | none => simp [add_block, hgl] at hout
    | some latest =>
      simp only [add_block, hgl] at hout
      by_cases hv : is_valid_block H c.difficulty b latest = true
      · rw [if_pos hv] at hout
        simp only [Option.some.injEq, Prod.mk.injEq] at hout
        rw [← hout.1]
        exact chainInv_append_valid H c b latest hinv hgl hv
      · rw [if_neg hv] at hout
        simp only [Option.some.injEq, Prod.mk.injEq] at hout
        rw [← hout.1]
        exact hinv
  · intro b c' r msg hout
    rcases fork_detection_mutation H c b c' r msg hout with hcc | ⟨latest, hgl, hv, hcc⟩
    · rw [hcc]
      exact hinv
    · rw [hcc]
      exact chainInv_append_valid H c b latest hinv hgl hv
  · intro cands
    cases hsb : specFirstBest (valid_from_scratch H c.difficulty) c.chain.length
        cands with
    | none =>
      have hrf : resolve_fork H c cands = (c, false) := by
        simp only [resolve_fork]
        rw [resolve_fork_snd_eq, hsb]
      rw [hrf]
      exact hinv
    | some bc =>
      obtain ⟨hmem, hval, hlen⟩ := specFirstBest_mem _ _ _ _ hsb
      have hrf : resolve_fork H c cands = ({ c with chain := bc }, true) := by
        simp only [resolve_fork]
        rw [resolve_fork_snd_eq, hsb]
      rw [hrf]
      exact chainOk_of_valid_from_scratch H c.difficulty bc hval

/-- Witness for the amended C1: appending a concrete valid block through
`add_block` keeps the invariant. -/
theorem claim_C1_witness :
    add_block wH wChain wNext =
      some ({ wChain with chain := wChain.chain ++ [wNext] }, true) ∧
    chainInv { wChain with chain := wChain.chain ++ [wNext] } :=
  ⟨rfl, (claim_C1_amended_invariant_preservation wH wChain chainInv_wChain).2.1
    wNext { wChain with chain := wChain.chain ++ [wNext] } true rfl⟩
